import Mathlib

/-!
Verification of the gmailsync archive storage engine and sync pipeline.

This file gives a shallow embedding of the Go sources:
  db/db.go      : the append-only archive (record codec, log replay, index)
  the command / sync pipeline file : adaptive scan window, fetch workers, mbox export

Modelling conventions.
Bytes are `Nat`; real file bytes are `< 256`, and byte-level layout is modelled
exactly (little-endian fixed headers, length fields, hash-prefix slicing).
Library primitives that the repository calls but does not define are modelled by
executable stand-ins that capture exactly the contract the code relies on:

* `crypto/sha1` : a 20-byte digest of the payload.  Modelled as an injective
  20-entry digest (19 zero entries followed by one entry encoding the whole
  payload via iterated `Nat.pair`).  The model keeps the two facts the code
  uses: the digest is exactly 20 entries long, and distinct payloads have
  distinct digests (the idealised collision-freedom that hash checking assumes).
* `compress/gzip` : an injective self-delimiting container.  `compress`
  prepends the two gzip magic bytes (31, 139) and the payload length;
  `decompress` rejects anything that does not parse back exactly, mirroring
  `gzip.NewReader` / `ReadAll` failing on corrupt or truncated streams.
* `encoding/asn1` : injective marshalling of the two record structs, with a
  partial inverse that fails on malformed input and ignores trailing bytes,
  mirroring `asn1.Unmarshal` whose rest-slice the code discards.

Go panics (`panic`, `log.Fatalf`) and read errors are represented by the
`Err` type: a panic aborts the run, so in the embedding it is an error value
that every caller propagates.
-/

namespace GmailSync

/-- Failure modes of the archive reader.  `eof` models `io.EOF`,
`unexpectedEof` models `io.ErrUnexpectedEOF` from `binary.Read` on a partial
header, `badFormat` the "Incorrect file format" error, and the remaining
constructors model the panics in `nextRecord` / `decompress`
(`hashMismatch` = `panic("hash failure")`, `gzipPanic` = gzip reader panic,
`asn1Panic` = `asn1.Unmarshal` panic, `slicePanic` = out-of-range slice
`data[:20]`). -/
inductive Err where
  | eof
  | unexpectedEof
  | badFormat
  | hashMismatch
  | gzipPanic
  | asn1Panic
  | slicePanic
deriving DecidableEq, Repr

/-- Little-endian encoding of a 16-bit value, as written by `binary.Write`. -/
def u16le (n : Nat) : List Nat := [n % 256, n / 256 % 256]

/-- Little-endian encoding of a 32-bit value, as written by `binary.Write`. -/
def u32le (n : Nat) : List Nat :=
  [n % 256, n / 256 % 256, n / 65536 % 256, n / 16777216 % 256]

/-- Little-endian encoding of a 64-bit value, as written by `binary.Write`. -/
def u64le (n : Nat) : List Nat := u32le (n % 4294967296) ++ u32le (n / 4294967296)

/-- Decode a little-endian 16-bit value from the front of a byte list. -/
def dec16 (bs : List Nat) : Nat := bs.getD 0 0 + 256 * bs.getD 1 0

/-- Decode a little-endian 32-bit value from the front of a byte list. -/
def dec32 (bs : List Nat) : Nat :=
  bs.getD 0 0 + 256 * bs.getD 1 0 + 65536 * bs.getD 2 0 + 16777216 * bs.getD 3 0

/-- Injective encoding of a byte list into one natural number, used by the
SHA-1 model below. -/
def natOfList : List Nat → Nat
  | [] => 0
  | x :: xs => Nat.pair x (natOfList xs) + 1

/-- Modelled from the spec: the 20-byte SHA-1 content hash (`crypto/sha1`,
used by `hash` in db.go).  The model produces exactly 20 entries and is
injective; see the header comment for why this idealisation is faithful to
what the code relies on. -/
def hash (bs : List Nat) : List Nat := List.replicate 19 0 ++ [natOfList bs]

/-- Modelled from the spec: gzip compression (`compress` in db.go).  The model
is the gzip container at the level of detail the code relies on: the two
magic bytes `31, 139` followed by a self-delimiting body. -/
def compress (bs : List Nat) : List Nat := 31 :: 139 :: bs.length :: bs

/-- Modelled from the spec: gzip decompression (`decompress` in db.go).
Returns `none` where `gzip.NewReader` or `ioutil.ReadAll` would fail (bad
magic, truncated or corrupt stream), which the Go code turns into a panic. -/
def decompress : List Nat → Option (List Nat)
  | b0 :: b1 :: n :: rest =>
    if b0 = 31 ∧ b1 = 139 ∧ rest.length = n then some rest else none
  | _ => none

/-- Injective encoding of a Go `int64` as a natural number (ASN.1 model). -/
def encInt (i : Int) : Nat := if 0 ≤ i then 2 * i.toNat else 2 * (-i).toNat - 1

/-- Inverse of `encInt`. -/
def decInt (n : Nat) : Int := if n % 2 = 0 then (n / 2 : Nat) else -(((n + 1) / 2 : Nat) : Int)

/-- Modelled from the spec: `asn1.Marshal` of a `MessageRecord` struct
(`{MessageID int64, Data []byte}`). -/
def asn1MarshalMsg (id : Int) (data : List Nat) : List Nat :=
  encInt id :: data.length :: data

/-- Modelled from the spec: `asn1.Unmarshal` into a `MessageRecord`;
`none` is the unmarshal error the Go code turns into a panic.  Trailing
bytes are ignored, as the code discards the rest-slice. -/
def asn1UnmarshalMsg : List Nat → Option (Int × List Nat)
  | e :: n :: rest => if n ≤ rest.length then some (decInt e, rest.take n) else none
  | _ => none

/-- Length-prefixed byte string inside a Labels payload (ASN.1 model). -/
def encBytes (l : List Nat) : List Nat := l.length :: l

/-- One `LabelsEntry` (`{MessageID int64, Labels [][]byte}`) in the ASN.1 model. -/
def encEntry (e : Int × List (List Nat)) : List Nat :=
  encInt e.1 :: e.2.length :: (e.2.map encBytes).flatten

/-- Modelled from the spec: `asn1.Marshal` of a `LabelsRecord`
(a sequence of `LabelsEntry`). -/
def asn1MarshalLabels (es : List (Int × List (List Nat))) : List Nat :=
  es.length :: (es.map encEntry).flatten

/-- Parse one length-prefixed byte string; `none` on malformed input. -/
def parseBytes : List Nat → Option (List Nat × List Nat)
  | n :: rest => if n ≤ rest.length then some (rest.take n, rest.drop n) else none
  | [] => none

/-- Parse a counted sequence of byte strings. -/
def parseBytesList : Nat → List Nat → Option (List (List Nat) × List Nat)
  | 0, bs => some ([], bs)
  | k + 1, bs =>
    match parseBytes bs with
    | some (l, rest) =>
      match parseBytesList k rest with
      | some (ls, rest2) => some (l :: ls, rest2)
      | none => none
    | none => none

/-- Parse one `LabelsEntry`. -/
def parseEntry : List Nat → Option ((Int × List (List Nat)) × List Nat)
  | e :: n :: rest =>
    match parseBytesList n rest with
    | some (ls, rest2) => some ((decInt e, ls), rest2)
    | none => none
  | _ => none

/-- Parse a counted sequence of `LabelsEntry`. -/
def parseEntries : Nat → List Nat → Option (List (Int × List (List Nat)) × List Nat)
  | 0, bs => some ([], bs)
  | k + 1, bs =>
    match parseEntry bs with
    | some (e, rest) =>
      match parseEntries k rest with
      | some (es, rest2) => some (e :: es, rest2)
      | none => none
    | none => none

/-- Modelled from the spec: `asn1.Unmarshal` into a `LabelsRecord`; `none` is
the unmarshal error the Go code turns into a panic. -/
def asn1UnmarshalLabels (bs : List Nat) : Option (List (Int × List (List Nat))) :=
  match bs with
  | n :: rest =>
    match parseEntries n rest with
    | some (es, _) => some es
    | none => none
  | [] => none

/-- Feature bit `FeatureCompressed = 1` (db.go). -/
def FeatureCompressed : Nat := 1

/-- Feature bit `FeatureHashed = 2` (db.go). -/
def FeatureHashed : Nat := 2

/-- Record payload encoding, embedding the body of `writeRecord` (db.go lines
572-582): if the `Hashed` feature bit is set, the 20-byte hash of the
uncompressed payload is prepended; then the payload follows, compressed when
the `Compressed` bit is set and verbatim otherwise. -/
def encode (features : Nat) (data : List Nat) : List Nat :=
  (if features &&& FeatureHashed ≠ 0 then hash data else []) ++
    (if features &&& FeatureCompressed ≠ 0 then compress data else data)

/-- Record payload decoding, embedding the feature handling of `nextRecord`
(db.go lines 535-550): split off the 20-byte hash prefix when hashed
(`data[:20]` panics when fewer than 20 bytes are stored), decompress when
compressed (panic on gzip failure), then recompute and compare the hash
(panic "hash failure" on mismatch). -/
def decode (features : Nat) (data : List Nat) : Except Err (List Nat) :=
  if features &&& FeatureHashed ≠ 0 ∧ data.length < 20 then .error .slicePanic
  else
    let dhash := if features &&& FeatureHashed ≠ 0 then data.take 20 else []
    let body := if features &&& FeatureHashed ≠ 0 then data.drop 20 else data
    match if features &&& FeatureCompressed ≠ 0 then decompress body else some body with
    | none => .error .gzipPanic
    | some d =>
      if features &&& FeatureHashed ≠ 0 ∧ hash d ≠ dhash then .error .hashMismatch
      else .ok d

/-! ## Record and file layer

The archive file is a 40-byte `FileHeader` followed by records, each an 8-byte
record header (`type:u16`, `feature_bits:u16`, `length:u32`, little-endian)
followed by `length` stored payload bytes (db.go `Header`, `writeRecord`,
`nextRecord`).  The reader is embedded with explicit fuel so that every
definition is executable; `nextRecord` consumes at least the 8 header bytes
per iteration, so a fuel of `length + 1` is always sufficient (proved below
via the consumption lemma). -/

/-- Record type constants from db.go: `AnyType = 0`, `MessageRecordType = 1`,
`LabelsRecordType = 2`, `DeleteRecordType = 3`, `HaveRecordType = 4`. -/
def MessageRecordType : Nat := 1

/-- Labels record type tag. -/
def LabelsRecordType : Nat := 2

/-- Delete record type tag (declared in db.go, never written or decoded). -/
def DeleteRecordType : Nat := 3

/-- A decoded record, or (for `other`) a record of a type the decoder has no
case for (`Delete`, `Have`, or unknown): those are read, integrity-checked and
then skipped by the `nextRecord` loop. -/
inductive LogRec where
  | msg (id : Int) (data : List Nat)
  | labels (entries : List (Int × List (List Nat)))
  | other (t : Nat) (data : List Nat)
deriving DecidableEq, Repr

/-- Record type tag as written by the producers in db.go. -/
def recType : LogRec → Nat
  | .msg _ _ => 1
  | .labels _ => 2
  | .other t _ => t

/-- Feature bits as written by the producers in db.go: Message records are
written `FeatureCompressed|FeatureHashed = 3` (`WriteMessage`), Labels records
`FeatureCompressed = 1` (`WriteLabels`); `other` records carry no features. -/
def recFeatures : LogRec → Nat
  | .msg _ _ => 3
  | .labels _ => 1
  | .other _ _ => 0

/-- Marshalled (pre-codec) payload of a record. -/
def recPayload : LogRec → List Nat
  | .msg id d => asn1MarshalMsg id d
  | .labels es => asn1MarshalLabels es
  | .other _ d => d

/-- Byte image of one record as produced by `writeRecord` (db.go lines
572-590): the codec output `pkt`, preceded by the little-endian header
`{type, features, len(pkt)}`. -/
def recordBytes (t features : Nat) (data : List Nat) : List Nat :=
  u16le t ++ u16le features ++ u32le (encode features data).length ++ encode features data

/-- Byte image of a `LogRec`. -/
def recBytes (r : LogRec) : List Nat := recordBytes (recType r) (recFeatures r) (recPayload r)

/-- Reading the 8-byte record header (`binary.Read` of `Header`): `io.EOF` on
an empty stream, `io.ErrUnexpectedEOF` on a partial header. -/
def readHeader (bs : List Nat) : Except Err ((Nat × Nat × Nat) × List Nat) :=
  if bs.length = 0 then .error .eof
  else if bs.length < 8 then .error .unexpectedEof
  else .ok ((dec16 bs, dec16 (bs.drop 2), dec32 (bs.drop 4)), bs.drop 8)

/-- One `fd.Read` into a buffer of `n` zero bytes: `io.EOF` only when the
stream is empty and `n > 0`; otherwise up to `n` bytes are copied and the
rest of the buffer keeps its zero fill (the Go code ignores the short-read
count). -/
def readFull (n : Nat) (bs : List Nat) : Except Err (List Nat × List Nat) :=
  if n ≠ 0 ∧ bs.length = 0 then .error .eof
  else .ok (bs.take n ++ List.replicate (n - bs.length) 0, bs.drop n)

/-- Fueled embedding of `nextRecord` (db.go lines 516-570): read a header;
skip the payload of records whose type does not match a non-`AnyType`
filter; otherwise read the stored payload, run the codec (`decode`), and
dispatch on the type tag — Message and Labels records are unmarshalled and
returned, any other type falls through the `switch` and the loop continues. -/
def nextRecordF : Nat → Nat → List Nat → Except Err (LogRec × List Nat)
  | 0, _, _ => .error .eof
  | fuel + 1, rt, bs =>
    match readHeader bs with
    | .error e => .error e
    | .ok ((t, f, len), rest) =>
      if rt ≠ 0 ∧ t ≠ rt then nextRecordF fuel rt (rest.drop len)
      else
        match readFull len rest with
        | .error e => .error e
        | .ok (data, rem) =>
          match decode f data with
          | .error e => .error e
          | .ok d =>
            if t = 1 then
              match asn1UnmarshalMsg d with
              | some m => .ok (.msg m.1 m.2, rem)
              | none => .error .asn1Panic
            else if t = 2 then
              match asn1UnmarshalLabels d with
              | some es => .ok (.labels es, rem)
              | none => .error .asn1Panic
            else nextRecordF fuel rt rem

/-- The `nextRecord` loop with always-sufficient fuel. -/
def nextRecord (rt : Nat) (bs : List Nat) : Except Err (LogRec × List Nat) :=
  nextRecordF (bs.length + 1) rt bs

/-- The in-memory index rebuilt by `Open` (db.go): the known-id map
`haveMsgID` and the labels map, both modelled as insertion-ordered
association structures (Go maps keyed by `int64`). -/
structure Index where
  haveMsgID : List Int
  labels : List (Int × List (List Nat))
deriving DecidableEq, Repr

/-- Key insertion for a Go `map[int64]bool` used as a set. -/
def haveInsert (id : Int) (l : List Int) : List Int := if id ∈ l then l else l ++ [id]

/-- Go map assignment `m[k] = v` on an association list. -/
def setAssoc (k : Int) (v : List (List Nat)) : List (Int × List (List Nat)) → List (Int × List (List Nat))
  | [] => [(k, v)]
  | (k2, v2) :: rest => if k2 = k then (k, v) :: rest else (k2, v2) :: setAssoc k v rest

/-- Go map lookup `m[k]` on an association list (`none` = key absent). -/
def lookupAssoc (k : Int) : List (Int × List (List Nat)) → Option (List (List Nat))
  | [] => none
  | (k2, v2) :: rest => if k2 = k then some v2 else lookupAssoc k rest

/-- The `switch` in `Open`'s replay loop (db.go lines 415-422): Message
records populate `haveMsgID`, Labels records overwrite `labels[id]` entry by
entry; anything else (never produced by `nextRecord`) is ignored. -/
def applyRec (idx : Index) : LogRec → Index
  | .msg id _ => { idx with haveMsgID := haveInsert id idx.haveMsgID }
  | .labels es => { idx with labels := es.foldl (fun m e => setAssoc e.1 e.2 m) idx.labels }
  | .other _ _ => idx

/-- Fueled embedding of `Open`'s replay loop (db.go lines 406-423): iterate
`nextRecord(AnyType)` until `io.EOF`, folding each record into the index;
any other error aborts `Open`. -/
def replayF : Nat → Index → List Nat → Except Err Index
  | 0, _, _ => .error .eof
  | fuel + 1, idx, bs =>
    match nextRecord 0 bs with
    | .error .eof => .ok idx
    | .error e => .error e
    | .ok (r, rem) => replayF fuel (applyRec idx r) rem

/-- The file magic `0x20121025` (db.go `fileMagic`). -/
def fileMagic : Nat := 538181669

/-- Embedding of `Open` (db.go lines 375-427) at the file-content level: an
empty (new) file yields an empty index; a nonempty file shorter than the
40-byte `FileHeader` leaves the header struct zeroed (`binary.Read`'s error
is discarded), so the magic check fails; a wrong magic is "Incorrect file
format"; otherwise every record after the header is replayed. -/
def openDB (file : List Nat) : Except Err Index :=
  if file.length = 0 then .ok ⟨[], []⟩
  else if file.length < 40 then .error .badFormat
  else if dec32 file ≠ fileMagic then .error .badFormat
  else replayF (file.length + 1) ⟨[], []⟩ (file.drop 40)

/-- Fueled embedding of the `mbox` export loop (sync file lines 270-305):
repeatedly `ReadMessage` (= `nextRecord(MessageRecordType)`) until `io.EOF`,
emitting one export unit `(message id, body)` per Message record in file
order.  A non-EOF read error dereferences the nil record in Go (panic);
it is propagated here. -/
def mboxF : Nat → List Nat → Except Err (List (Int × List Nat))
  | 0, _ => .error .eof
  | fuel + 1, bs =>
    match nextRecord 1 bs with
    | .error .eof => .ok []
    | .error e => .error e
    | .ok (.msg id d, rem) =>
      match mboxF fuel rem with
      | .ok units => .ok ((id, d) :: units)
      | .error e => .error e
    | .ok (_, _) => .error .asn1Panic

/-- Export units of an archive file: rewind to just past the file header and
run the mbox loop. -/
def mboxUnits (file : List Nat) : Except Err (List (Int × List Nat)) :=
  mboxF (file.length + 1) (file.drop 40)

/-- The fixed 40-byte file header as written on first creation (db.go lines
391-398): magic, version 1, zeroed reserved fields; the creation timestamp
(`time.Now()`) is modelled as 0 — it is never read back. -/
def fileHeaderBytes : List Nat :=
  u32le fileMagic ++ [1, 0] ++ u16le 0 ++ u32le 0 ++ u32le 0 ++ u64le 0 ++ u64le 0 ++ u64le 0

/-- Concatenated byte image of a record list. -/
def logBytes (recs : List LogRec) : List Nat := (recs.map recBytes).flatten

/-- Byte image of a whole archive file holding exactly `recs`. -/
def mkFile (recs : List LogRec) : List Nat := fileHeaderBytes ++ logBytes recs

/-- Well-formedness of a record for byte-level round-tripping: the stored
payload fits the `u32` length field, and an `other` record's type tag fits
`u16` and is none of the two decoded types. -/
def recWF : LogRec → Prop
  | .msg id d => (encode 3 (asn1MarshalMsg id d)).length < 4294967296
  | .labels es => (encode 1 (asn1MarshalLabels es)).length < 4294967296
  | .other t d => t < 65536 ∧ t ≠ 1 ∧ t ≠ 2 ∧ d.length < 4294967296

instance : DecidablePred recWF := by
  intro r
  cases r <;> simp only [recWF] <;> infer_instance

/-- Writer-side state of an open archive: the three in-memory maps of the
`DB` struct plus the current file contents behind the descriptor. -/
structure DB where
  labels : List (Int × List (List Nat))
  labelsChanged : List Int
  haveMsgID : List Int
  file : List Nat
deriving DecidableEq, Repr

/-- Embedding of `HaveUID` (db.go lines 455-459). -/
def DB.haveUID (db : DB) (id : Int) : Bool := db.haveMsgID.contains id

/-- Embedding of `Size` (db.go lines 449-453): `len(db.haveMsgID)`. -/
def DB.size (db : DB) : Nat := db.haveMsgID.length

/-- Embedding of `Labels` (db.go lines 461-465); a missing key reads as the
nil slice. -/
def DB.labelsOf (db : DB) (id : Int) : List (List Nat) := (lookupAssoc id db.labels).getD []

/-- Embedding of `SetLabels` (db.go lines 467-472). -/
def DB.setLabels (db : DB) (id : Int) (ls : List (List Nat)) : DB :=
  { db with labels := setAssoc id ls db.labels,
            labelsChanged := haveInsert id db.labelsChanged }

/-- Embedding of `WriteMessage` (db.go lines 474-485): marshal the
`MessageRecord` and append it with features `Compressed|Hashed`.  The Go
function's only error source is the file system (`fd.Sync`), modelled as
always succeeding; note that it touches none of the in-memory maps. -/
def DB.writeMessage (db : DB) (id : Int) (data : List Nat) : DB :=
  { db with file := db.file ++ recordBytes 1 3 (asn1MarshalMsg id data) }

/-- Embedding of `WriteLabels` (db.go lines 496-514): collect one
`LabelsEntry` per dirty id with its current in-memory labels, clear the
dirty set, and append the batch as one Labels record with features
`Compressed`. -/
def DB.writeLabels (db : DB) : DB :=
  { db with labelsChanged := [],
            file := db.file ++ recordBytes 2 1
              (asn1MarshalLabels (db.labelsChanged.map fun id => (id, db.labelsOf id))) }

/-- The export units that the mbox loop emits from a record list: one unit
per Message record, in file order. -/
def msgUnits (recs : List LogRec) : List (Int × List Nat) :=
  recs.filterMap fun r =>
    match r with
    | .msg id d => some (id, d)
    | _ => none

/-- The writer state produced by opening an archive holding `recs`. -/
def dbOf (recs : List LogRec) : DB :=
  { labels := (recs.foldl applyRec ⟨[], []⟩).labels,
    labelsChanged := [],
    haveMsgID := (recs.foldl applyRec ⟨[], []⟩).haveMsgID,
    file := mkFile recs }

/-! ## Sync pipeline: adaptive scan window and fetch workers (sync file) -/

/-- The window-size adjustment at the end of one scan round of `findNewUIDs`
(sync file lines 197-204): a round that queued zero new messages doubles the
window below the 3200 ceiling, a round that queued at least one halves it
above the 100 floor.  `step` is a Go `uint32`; values stay below 6400, far
from wrap-around, so plain `Nat` arithmetic is exact. -/
def stepUpdate (step fetch : Nat) : Nat :=
  if fetch = 0 ∧ step < 3200 then step * 2
  else if fetch > 0 ∧ step > 100 then step / 2
  else step

/-- Window size after a sequence of scan rounds with the given per-round
new-message counts, from the initial `step := uint32(100)` (line 156). -/
def windowAfter (fetches : List Nat) : Nat := fetches.foldl stepUpdate 100

/-- The shared fetch queue (`chan MsgID`) as observed by one worker:
remaining buffered items and whether the scanner has closed it. -/
structure Queue where
  items : List (Nat × Int)
  closed : Bool
deriving DecidableEq, Repr

/-- One channel receive `msgid, ok := <-msgids`: yields the next item, or
`(ok = false)` on a closed drained channel; `none` means the receive blocks
(open empty channel). -/
def recvQ (q : Queue) : Option (Option (Nat × Int) × Queue) :=
  match q.items with
  | m :: rest => some (some m, { q with items := rest })
  | [] => if q.closed then some (none, q) else none

/-- Fueled embedding of the worker loop of `fetchAndStore` (sync file lines
241-265):

    for { select { case msgid, ok := <-msgids:
        if !ok { break } ; fetch; append; count } }

`some acc` would mean the loop exited and the worker reached `wg.Done()`
(line 267); `none` means the loop is still running when the fuel runs out,
or blocked.  In this loop the `break` statement exits only the `select`, so
the `ok = false` arm falls through to the next `for` iteration with the
queue state unchanged; no arm leaves the loop, and `wg.Done()` is
unreachable. -/
def fetchLoop : Nat → Queue → List (Nat × Int) → Option (List (Nat × Int))
  | 0, _, _ => none
  | fuel + 1, q, acc =>
    match recvQ q with
    | none => none
    | some (none, q2) => fetchLoop fuel q2 acc
    | some (some m, q2) => fetchLoop fuel q2 (acc ++ [m])

/-- Modelled from the spec: the worker loop §4.5 describes ("each worker
repeatedly takes one pair from the shared queue **until it observes the
queue closed and drained**", then signals completion).  Identical to
`fetchLoop` except that observing the closed drained queue exits the loop,
reaching `wg.Done()`. -/
def fetchLoopSpec : Nat → Queue → List (Nat × Int) → Option (List (Nat × Int))
  | 0, _, _ => none
  | fuel + 1, q, acc =>
    match recvQ q with
    | none => none
    | some (none, _) => some acc
    | some (some m, q2) => fetchLoopSpec fuel q2 (acc ++ [m])

/-- Formalisation of the spec's replay rule for labels, in its own words:
"for any message id, the chronologically last Labels record mentioning it
fully determines that id's label set" — scan every Labels entry in append
order and keep the last one for the id. -/
def specLastLabels (recs : List LogRec) (id : Int) : Option (List (List Nat)) :=
  ((recs.map fun r =>
    match r with
    | .labels es => es
    | _ => []).flatten).foldl (fun acc e => if e.1 = id then some e.2 else acc) none

theorem dec16_u16le (n : Nat) (rest : List Nat) :
    dec16 (u16le n ++ rest) = n % 65536 := by
  simp [dec16, u16le]
  omega

theorem dec32_u32le (n : Nat) (rest : List Nat) :
    dec32 (u32le n ++ rest) = n % 4294967296 := by
  simp [dec32, u32le]
  omega

theorem u16le_length (n : Nat) : (u16le n).length = 2 := rfl

theorem u32le_length (n : Nat) : (u32le n).length = 4 := rfl

theorem natOfList_injective : Function.Injective natOfList := by
  intro a
  induction a with
  | nil => intro b h; cases b with
    | nil => rfl
    | cons y ys => simp [natOfList] at h
  | cons x xs ih =>
    intro b h
    cases b with
    | nil => simp [natOfList] at h
    | cons y ys =>
      simp only [natOfList, Nat.add_right_cancel_iff] at h
      have h2 : (x, natOfList xs) = (y, natOfList ys) := by
        rw [← Nat.unpair_pair x (natOfList xs), ← Nat.unpair_pair y (natOfList ys), h]
      simp only [Prod.mk.injEq] at h2
      rw [h2.1, ih h2.2]

theorem hash_length (bs : List Nat) : (hash bs).length = 20 := by
  simp [hash]

theorem hash_injective : Function.Injective hash := by
  intro a b h
  simp only [hash, List.append_right_inj, List.cons.injEq] at h
  exact natOfList_injective h.1

theorem decompress_compress (bs : List Nat) : decompress (compress bs) = some bs := by
  simp [compress, decompress]

theorem decInt_encInt (i : Int) : decInt (encInt i) = i := by
  unfold encInt decInt
  by_cases h : 0 ≤ i
  · rw [if_pos h]
    have h2 : 2 * i.toNat % 2 = 0 := by omega
    rw [if_pos h2]
    omega
  · rw [if_neg h]
    have h1 : 1 ≤ (-i).toNat := by omega
    have h2 : ¬(2 * (-i).toNat - 1) % 2 = 0 := by omega
    rw [if_neg h2]
    omega

theorem asn1UnmarshalMsg_marshal (id : Int) (data : List Nat) :
    asn1UnmarshalMsg (asn1MarshalMsg id data) = some (id, data) := by
  simp [asn1MarshalMsg, asn1UnmarshalMsg, decInt_encInt]

theorem parseBytes_encBytes (l rest : List Nat) :
    parseBytes (encBytes l ++ rest) = some (l, rest) := by
  simp [encBytes, parseBytes]

theorem parseBytesList_marshal (ls : List (List Nat)) (rest : List Nat) :
    parseBytesList ls.length ((ls.map encBytes).flatten ++ rest) = some (ls, rest) := by
  induction ls generalizing rest with
  | nil => simp [parseBytesList]
  | cons l ls ih =>
    simp only [List.length_cons, List.map_cons, List.flatten_cons, List.append_assoc,
      parseBytesList, parseBytes_encBytes, ih]

theorem parseEntry_marshal (e : Int × List (List Nat)) (rest : List Nat) :
    parseEntry (encEntry e ++ rest) = some (e, rest) := by
  simp [encEntry, parseEntry, parseBytesList_marshal, decInt_encInt]

theorem parseEntries_marshal (es : List (Int × List (List Nat))) (rest : List Nat) :
    parseEntries es.length ((es.map encEntry).flatten ++ rest) = some (es, rest) := by
  induction es generalizing rest with
  | nil => simp [parseEntries]
  | cons e es ih =>
    simp only [List.length_cons, List.map_cons, List.flatten_cons, List.append_assoc,
      parseEntries, parseEntry_marshal, ih]

theorem asn1UnmarshalLabels_marshal (es : List (Int × List (List Nat))) :
    asn1UnmarshalLabels (asn1MarshalLabels es) = some es := by
  have h := parseEntries_marshal es []
  simp only [List.append_nil] at h
  simp [asn1MarshalLabels, asn1UnmarshalLabels, h]

theorem length_hash_append (data X : List Nat) : (hash data ++ X).length = 20 + X.length := by
  simp [hash_length]

theorem take_20_hash_append (data X : List Nat) : (hash data ++ X).take 20 = hash data :=
  List.take_left' (hash_length data)

theorem drop_20_hash_append (data X : List Nat) : (hash data ++ X).drop 20 = X :=
  List.drop_left' (hash_length data)

theorem decode_encode (features : Nat) (data : List Nat) :
    decode features (encode features data) = .ok data := by
  by_cases h2 : features &&& FeatureHashed ≠ 0 <;>
    by_cases h1 : features &&& FeatureCompressed ≠ 0 <;>
      simp [encode, decode, h1, h2, length_hash_append, take_20_hash_append,
        drop_20_hash_append, decompress_compress, hash_length]

/-! ## Reader lemmas: header/read facts, fuel adequacy, record round-trips -/

theorem readHeader_ok {bs : List Nat} {hd : Nat × Nat × Nat} {rest : List Nat}
    (he : readHeader bs = .ok (hd, rest)) : 8 ≤ bs.length ∧ rest = bs.drop 8 := by
  unfold readHeader at he
  by_cases h1 : bs.length = 0
  · rw [if_pos h1] at he; simp at he
  · rw [if_neg h1] at he
    by_cases h2 : bs.length < 8
    · rw [if_pos h2] at he; simp at he
    · rw [if_neg h2] at he
      simp only [Except.ok.injEq, Prod.mk.injEq] at he
      exact ⟨by omega, he.2.symm⟩

theorem readFull_ok {n : Nat} {bs data rem : List Nat}
    (he : readFull n bs = .ok (data, rem)) : rem = bs.drop n := by
  unfold readFull at he
  by_cases h1 : n ≠ 0 ∧ bs.length = 0
  · rw [if_pos h1] at he; simp at he
  · rw [if_neg h1] at he
    simp only [Except.ok.injEq, Prod.mk.injEq] at he
    exact he.2.symm

theorem nextRecordF_consume : ∀ (fuel rt : Nat) (bs : List Nat) (r : LogRec) (rem : List Nat),
    nextRecordF fuel rt bs = .ok (r, rem) → rem.length < bs.length := by
  intro fuel
  induction fuel with
  | zero => intro rt bs r rem h; simp [nextRecordF] at h
  | succ k ih =>
    intro rt bs r rem h
    simp only [nextRecordF] at h
    cases hh : readHeader bs with
    | error e => simp only [hh] at h; exact Except.noConfusion h
    | ok v =>
      obtain ⟨⟨t, f, L⟩, rest⟩ := v
      simp only [hh] at h
      obtain ⟨h8, hrest⟩ := readHeader_ok hh
      have hrlen : rest.length = bs.length - 8 := by rw [hrest]; simp
      by_cases hskip : rt ≠ 0 ∧ t ≠ rt
      · rw [if_pos hskip] at h
        have hs := ih rt _ r rem h
        have : (rest.drop L).length ≤ rest.length := by
          simp only [List.length_drop]; omega
        omega
      · rw [if_neg hskip] at h
        cases hr : readFull L rest with
        | error e => simp only [hr] at h; exact Except.noConfusion h
        | ok dv =>
          obtain ⟨data, rem0⟩ := dv
          simp only [hr] at h
          have hrem0 : rem0 = rest.drop L := readFull_ok hr
          have hlen0 : rem0.length ≤ bs.length - 8 := by
            rw [hrem0]; simp only [List.length_drop]; omega
          cases hd : decode f data with
          | error e => simp only [hd] at h; exact Except.noConfusion h
          | ok d =>
            simp only [hd] at h
            by_cases ht1 : t = 1
            · rw [if_pos ht1] at h
              cases hm : asn1UnmarshalMsg d with
              | none => simp only [hm] at h; exact Except.noConfusion h
              | some m =>
                simp only [hm, Except.ok.injEq, Prod.mk.injEq] at h
                obtain ⟨-, h2⟩ := h
                subst h2
                omega
            · rw [if_neg ht1] at h
              by_cases ht2 : t = 2
              · rw [if_pos ht2] at h
                cases hm : asn1UnmarshalLabels d with
                | none => simp only [hm] at h; exact Except.noConfusion h
                | some es =>
                  simp only [hm, Except.ok.injEq, Prod.mk.injEq] at h
                  obtain ⟨-, h2⟩ := h
                  subst h2
                  omega
              · rw [if_neg ht2] at h
                have := ih rt rem0 r rem h
                omega

theorem nextRecord_consume {rt : Nat} {bs : List Nat} {r : LogRec} {rem : List Nat}
    (h : nextRecord rt bs = .ok (r, rem)) : rem.length < bs.length :=
  nextRecordF_consume _ rt bs r rem h

theorem nextRecordF_irrel : ∀ (n m rt : Nat) (bs : List Nat),
    bs.length < n → bs.length < m → nextRecordF n rt bs = nextRecordF m rt bs := by
  intro n
  induction n with
  | zero => intro m rt bs h1 _; omega
  | succ k ih =>
    intro m rt bs h1 h2
    cases m with
    | zero => omega
    | succ m2 =>
      simp only [nextRecordF]
      cases hh : readHeader bs with
      | error e => simp only [hh]
      | ok v =>
        obtain ⟨⟨t, f, L⟩, rest⟩ := v
        simp only [hh]
        obtain ⟨h8, hrest⟩ := readHeader_ok hh
        have hrlen : rest.length = bs.length - 8 := by rw [hrest]; simp
        by_cases hskip : rt ≠ 0 ∧ t ≠ rt
        · rw [if_pos hskip, if_pos hskip]
          have hd : (rest.drop L).length ≤ rest.length := by
            simp only [List.length_drop]; omega
          exact ih m2 rt (rest.drop L) (by omega) (by omega)
        · rw [if_neg hskip, if_neg hskip]
          cases hr : readFull L rest with
          | error e => simp only [hr]
          | ok dv =>
            obtain ⟨data, rem0⟩ := dv
            simp only [hr]
            have hrem0 : rem0 = rest.drop L := readFull_ok hr
            have hlen0 : rem0.length ≤ rest.length := by
              rw [hrem0]; simp only [List.length_drop]; omega
            cases hd : decode f data with
            | error e => simp only [hd]
            | ok d =>
              simp only [hd]
              by_cases ht1 : t = 1
              · rw [if_pos ht1, if_pos ht1]
              · rw [if_neg ht1, if_neg ht1]
                by_cases ht2 : t = 2
                · rw [if_pos ht2, if_pos ht2]
                · rw [if_neg ht2, if_neg ht2]
                  exact ih m2 rt rem0 (by omega) (by omega)

theorem nextRecordF_eq_nextRecord {fuel rt : Nat} {bs : List Nat} (h : bs.length < fuel) :
    nextRecordF fuel rt bs = nextRecord rt bs :=
  nextRecordF_irrel fuel (bs.length + 1) rt bs h (Nat.lt_succ_self _)

theorem replayF_irrel : ∀ (n m : Nat) (idx : Index) (bs : List Nat),
    bs.length < n → bs.length < m → replayF n idx bs = replayF m idx bs := by
  intro n
  induction n with
  | zero => intro m idx bs h1 _; omega
  | succ k ih =>
    intro m idx bs h1 h2
    cases m with
    | zero => omega
    | succ m2 =>
      simp only [replayF]
      cases hn : nextRecord 0 bs with
      | error e => cases e <;> rfl
      | ok v =>
        obtain ⟨r, rem⟩ := v
        have := nextRecord_consume hn
        exact ih m2 (applyRec idx r) rem (by omega) (by omega)

theorem mboxF_irrel : ∀ (n m : Nat) (bs : List Nat),
    bs.length < n → bs.length < m → mboxF n bs = mboxF m bs := by
  intro n
  induction n with
  | zero => intro m bs h1 _; omega
  | succ k ih =>
    intro m bs h1 h2
    cases m with
    | zero => omega
    | succ m2 =>
      simp only [mboxF]
      cases hn : nextRecord 1 bs with
      | error e => cases e <;> rfl
      | ok v =>
        obtain ⟨r, rem⟩ := v
        have := nextRecord_consume hn
        cases r with
        | msg id d =>
          have hrw := ih m2 rem (by omega) (by omega)
          simp only [hrw]
        | labels es => rfl
        | other t d => rfl

theorem recType_lt {r : LogRec} (h : recWF r) : recType r < 65536 := by
  cases r with
  | msg id d => simp [recType]
  | labels es => simp [recType]
  | other t d => exact h.1

theorem recFeatures_lt (r : LogRec) : recFeatures r < 65536 := by
  cases r <;> simp [recFeatures]

theorem recWF_len {r : LogRec} (h : recWF r) :
    (encode (recFeatures r) (recPayload r)).length < 4294967296 := by
  cases r with
  | msg id d => exact h
  | labels es => exact h
  | other t d => simpa [recFeatures, recPayload, encode, FeatureHashed, FeatureCompressed]
      using h.2.2.2

theorem readHeader_parts (t f : Nat) (P rest : List Nat)
    (ht : t < 65536) (hf : f < 65536) (hL : P.length < 4294967296) :
    readHeader ((u16le t ++ u16le f ++ u32le P.length ++ P) ++ rest) =
      .ok ((t, f, P.length), P ++ rest) := by
  simp only [u16le, u32le, List.cons_append, List.nil_append, List.append_assoc]
  unfold readHeader
  simp only [List.length_cons, dec16, dec32, List.getD_cons_zero, List.getD_cons_succ,
    List.drop_succ_cons, List.drop_zero]
  rw [if_neg (by omega), if_neg (by omega)]
  simp only [Except.ok.injEq, Prod.mk.injEq]
  exact ⟨⟨by omega, by omega, by omega⟩, trivial⟩

theorem readFull_exact (P rest : List Nat) : readFull P.length (P ++ rest) = .ok (P, rest) := by
  unfold readFull
  rw [if_neg (by simp only [List.length_append]; omega)]
  simp [List.take_left, List.drop_left]

theorem decode_zero (data : List Nat) : decode 0 data = .ok data := by
  simp [decode, FeatureHashed, FeatureCompressed]

theorem recBytes_parts (r : LogRec) :
    recBytes r = u16le (recType r) ++ u16le (recFeatures r) ++
      u32le (encode (recFeatures r) (recPayload r)).length ++
      encode (recFeatures r) (recPayload r) := rfl

theorem recBytes_length_ge (r : LogRec) : 8 ≤ (recBytes r).length := by
  rw [recBytes_parts]
  simp [u16le, u32le]

theorem nextRecordF_succ (fuel rt : Nat) (bs : List Nat) :
    nextRecordF (fuel + 1) rt bs =
      match readHeader bs with
      | .error e => .error e
      | .ok ((t, f, len), rest) =>
        if rt ≠ 0 ∧ t ≠ rt then nextRecordF fuel rt (rest.drop len)
        else
          match readFull len rest with
          | .error e => .error e
          | .ok (data, rem) =>
            match decode f data with
            | .error e => .error e
            | .ok d =>
              if t = 1 then
                match asn1UnmarshalMsg d with
                | some m => .ok (.msg m.1 m.2, rem)
                | none => .error .asn1Panic
              else if t = 2 then
                match asn1UnmarshalLabels d with
                | some es => .ok (.labels es, rem)
                | none => .error .asn1Panic
              else nextRecordF fuel rt rem := rfl

theorem nextRecord_msg (rt : Nat) (id : Int) (d : List Nat) (rest : List Nat)
    (hwf : recWF (.msg id d)) (hrt : rt = 0 ∨ rt = 1) :
    nextRecord rt (recBytes (.msg id d) ++ rest) = .ok (.msg id d, rest) := by
  unfold nextRecord
  rw [nextRecordF_succ, recBytes_parts]
  have hh := readHeader_parts 1 3 (encode 3 (asn1MarshalMsg id d)) rest (by omega) (by omega) hwf
  simp only [recType, recFeatures, recPayload]
  simp only [recType, recFeatures, recPayload] at hh
  simp only [hh]
  rw [if_neg (by omega)]
  simp only [readFull_exact, decode_encode, asn1UnmarshalMsg_marshal]
  rw [if_pos trivial]

theorem nextRecord_labels (rt : Nat) (es : List (Int × List (List Nat))) (rest : List Nat)
    (hwf : recWF (.labels es)) (hrt : rt = 0 ∨ rt = 2) :
    nextRecord rt (recBytes (.labels es) ++ rest) = .ok (.labels es, rest) := by
  unfold nextRecord
  rw [nextRecordF_succ, recBytes_parts]
  have hh := readHeader_parts 2 1 (encode 1 (asn1MarshalLabels es)) rest (by omega) (by omega) hwf
  simp only [recType, recFeatures, recPayload]
  simp only [recType, recFeatures, recPayload] at hh
  simp only [hh]
  rw [if_neg (by omega)]
  simp only [readFull_exact, decode_encode, asn1UnmarshalLabels_marshal]
  rw [if_neg (by omega), if_pos trivial]

theorem nextRecord_other (t : Nat) (d rest : List Nat) (hwf : recWF (.other t d)) :
    nextRecord 0 (recBytes (.other t d) ++ rest) = nextRecord 0 rest := by
  unfold nextRecord
  rw [nextRecordF_succ, recBytes_parts]
  have hh := readHeader_parts t 0 (encode 0 d) rest hwf.1 (by omega) (recWF_len hwf)
  simp only [recType, recFeatures, recPayload]
  simp only [recType, recFeatures, recPayload] at hh
  simp only [hh]
  rw [if_neg (by omega)]
  simp only [readFull_exact, decode_zero]
  rw [if_neg hwf.2.1, if_neg hwf.2.2.1]
  apply nextRecordF_eq_nextRecord
  simp only [List.length_append, List.length_cons, u16le, u32le]
  omega

theorem nextRecord_skip (rt : Nat) (r : LogRec) (rest : List Nat) (hwf : recWF r)
    (hrt : rt ≠ 0) (hne : recType r ≠ rt) :
    nextRecord rt (recBytes r ++ rest) = nextRecord rt rest := by
  unfold nextRecord
  rw [nextRecordF_succ, recBytes_parts]
  have hh := readHeader_parts (recType r) (recFeatures r)
    (encode (recFeatures r) (recPayload r)) rest (recType_lt hwf) (recFeatures_lt r)
    (recWF_len hwf)
  simp only [hh]
  rw [if_pos ⟨hrt, hne⟩]
  rw [List.drop_left]
  apply nextRecordF_eq_nextRecord
  simp only [List.length_append, List.length_cons, u16le, u32le]
  omega

theorem replayF_succ (fuel : Nat) (idx : Index) (bs : List Nat) :
    replayF (fuel + 1) idx bs =
      match nextRecord 0 bs with
      | .error .eof => .ok idx
      | .error e => .error e
      | .ok (r, rem) => replayF fuel (applyRec idx r) rem := rfl

theorem mboxF_succ (fuel : Nat) (bs : List Nat) :
    mboxF (fuel + 1) bs =
      match nextRecord 1 bs with
      | .error .eof => .ok []
      | .error e => .error e
      | .ok (.msg id d, rem) =>
        match mboxF fuel rem with
        | .ok units => .ok ((id, d) :: units)
        | .error e => .error e
      | .ok (_, _) => .error .asn1Panic := rfl

theorem replayF_step (r : LogRec) (tail : List Nat) (idx : Index) (fuel1 fuel2 : Nat)
    (hwf : recWF r) (h1 : (recBytes r ++ tail).length < fuel1) (h2 : tail.length < fuel2) :
    replayF fuel1 idx (recBytes r ++ tail) = replayF fuel2 (applyRec idx r) tail := by
  have hlen : (recBytes r ++ tail).length = (recBytes r).length + tail.length :=
    List.length_append _ _
  have h8 := recBytes_length_ge r
  cases fuel1 with
  | zero => omega
  | succ k =>
    rw [replayF_succ]
    cases r with
    | msg id d =>
      rw [nextRecord_msg 0 id d tail hwf (Or.inl rfl)]
      exact replayF_irrel k fuel2 _ tail (by omega) h2
    | labels es =>
      rw [nextRecord_labels 0 es tail hwf (Or.inl rfl)]
      exact replayF_irrel k fuel2 _ tail (by omega) h2
    | other t d =>
      rw [nextRecord_other t d tail hwf]
      cases fuel2 with
      | zero => omega
      | succ m2 =>
        rw [show applyRec idx (.other t d) = idx from rfl, replayF_succ]
        cases hn : nextRecord 0 tail with
        | error e => cases e <;> rfl
        | ok v =>
          obtain ⟨r2, rem⟩ := v
          have := nextRecord_consume hn
          exact replayF_irrel k m2 _ rem (by omega) (by omega)

theorem replayF_logBytes : ∀ (recs : List LogRec) (idx : Index) (fuel : Nat),
    (logBytes recs).length < fuel → (∀ r ∈ recs, recWF r) →
    replayF fuel idx (logBytes recs) = .ok (recs.foldl applyRec idx) := by
  intro recs
  induction recs with
  | nil =>
    intro idx fuel h _
    cases fuel with
    | zero => omega
    | succ k => rfl
  | cons r recs ih =>
    intro idx fuel h hwf
    have hl : logBytes (r :: recs) = recBytes r ++ logBytes recs := by
      simp [logBytes]
    rw [hl] at h ⊢
    rw [replayF_step r (logBytes recs) idx fuel ((logBytes recs).length + 1)
      (hwf r (List.mem_cons_self _ _)) h (Nat.lt_succ_self _)]
    rw [ih (applyRec idx r) _ (Nat.lt_succ_self _) fun r2 hr2 => hwf r2 (List.mem_cons_of_mem r hr2)]
    rfl

theorem fileHeaderBytes_length : fileHeaderBytes.length = 40 := rfl

theorem openDB_mkFile (recs : List LogRec) (hwf : ∀ r ∈ recs, recWF r) :
    openDB (mkFile recs) = .ok (recs.foldl applyRec ⟨[], []⟩) := by
  unfold openDB mkFile
  have hlen : (fileHeaderBytes ++ logBytes recs).length = 40 + (logBytes recs).length := by
    rw [List.length_append, fileHeaderBytes_length]
  rw [if_neg (by omega), if_neg (by omega)]
  have hmagic : dec32 (fileHeaderBytes ++ logBytes recs) = fileMagic := by
    have : fileHeaderBytes ++ logBytes recs =
        u32le fileMagic ++ (([1, 0] ++ u16le 0 ++ u32le 0 ++ u32le 0 ++ u64le 0 ++ u64le 0 ++
          u64le 0) ++ logBytes recs) := by
      simp [fileHeaderBytes, List.append_assoc]
    rw [this, dec32_u32le]
    rfl
  rw [if_neg (by rw [hmagic]; exact fun h => h rfl)]
  rw [List.drop_left' fileHeaderBytes_length]
  exact replayF_logBytes recs _ _ (by omega) hwf

theorem mboxF_step_msg (id : Int) (d tail : List Nat) (fuel1 fuel2 : Nat)
    (hwf : recWF (.msg id d)) (h1 : (recBytes (.msg id d) ++ tail).length < fuel1)
    (h2 : tail.length < fuel2) :
    mboxF fuel1 (recBytes (.msg id d) ++ tail) =
      match mboxF fuel2 tail with
      | .ok units => .ok ((id, d) :: units)
      | .error e => .error e := by
  have hlen : (recBytes (.msg id d) ++ tail).length =
      (recBytes (.msg id d)).length + tail.length := List.length_append _ _
  have h8 := recBytes_length_ge (.msg id d)
  cases fuel1 with
  | zero => omega
  | succ k =>
    rw [mboxF_succ]
    simp only [nextRecord_msg 1 id d tail hwf (Or.inr rfl)]
    rw [mboxF_irrel k fuel2 tail (by omega) h2]

theorem mboxF_step_skip (r : LogRec) (tail : List Nat) (fuel1 fuel2 : Nat)
    (hwf : recWF r) (hne : recType r ≠ 1)
    (h1 : (recBytes r ++ tail).length < fuel1) (h2 : tail.length < fuel2) :
    mboxF fuel1 (recBytes r ++ tail) = mboxF fuel2 tail := by
  have hlen : (recBytes r ++ tail).length = (recBytes r).length + tail.length :=
    List.length_append _ _
  have h8 := recBytes_length_ge r
  cases fuel1 with
  | zero => omega
  | succ k =>
    rw [mboxF_succ, nextRecord_skip 1 r tail hwf (by omega) hne]
    cases fuel2 with
    | zero => omega
    | succ m2 =>
      rw [mboxF_succ m2]
      cases hn : nextRecord 1 tail with
      | error e => cases e <;> rfl
      | ok v =>
        obtain ⟨r2, rem⟩ := v
        have := nextRecord_consume hn
        cases r2 with
        | msg id2 d2 =>
          have hrw := mboxF_irrel k m2 rem (by omega) (by omega)
          simp only [hrw]
        | labels es => rfl
        | other t2 d2 => rfl

theorem mboxF_logBytes : ∀ (recs : List LogRec) (fuel : Nat),
    (logBytes recs).length < fuel → (∀ r ∈ recs, recWF r) →
    mboxF fuel (logBytes recs) = .ok (msgUnits recs) := by
  intro recs
  induction recs with
  | nil =>
    intro fuel h _
    cases fuel with
    | zero => omega
    | succ k => rfl
  | cons r recs ih =>
    intro fuel h hwf
    have hl : logBytes (r :: recs) = recBytes r ++ logBytes recs := by
      simp [logBytes]
    rw [hl] at h ⊢
    have hih := ih ((logBytes recs).length + 1) (Nat.lt_succ_self _)
      fun r2 hr2 => hwf r2 (List.mem_cons_of_mem r hr2)
    cases r with
    | msg id d =>
      rw [mboxF_step_msg id d (logBytes recs) fuel ((logBytes recs).length + 1)
        (hwf _ (List.mem_cons_self _ _)) h (Nat.lt_succ_self _), hih]
      rfl
    | labels es =>
      rw [mboxF_step_skip (.labels es) (logBytes recs) fuel ((logBytes recs).length + 1)
        (hwf _ (List.mem_cons_self _ _)) (by simp [recType]) h (Nat.lt_succ_self _), hih]
      rfl
    | other t d =>
      rw [mboxF_step_skip (.other t d) (logBytes recs) fuel ((logBytes recs).length + 1)
        (hwf _ (List.mem_cons_self _ _)) (hwf _ (List.mem_cons_self _ _)).2.1 h (Nat.lt_succ_self _), hih]
      rfl

theorem mboxUnits_mkFile (recs : List LogRec) (hwf : ∀ r ∈ recs, recWF r) :
    mboxUnits (mkFile recs) = .ok (msgUnits recs) := by
  unfold mboxUnits mkFile
  rw [List.drop_left' fileHeaderBytes_length]
  apply mboxF_logBytes recs _ _ hwf
  have : (fileHeaderBytes ++ logBytes recs).length = 40 + (logBytes recs).length := by
    rw [List.length_append, fileHeaderBytes_length]
  omega

theorem windowAfter_append (fs : List Nat) (f : Nat) :
    windowAfter (fs ++ [f]) = stepUpdate (windowAfter fs) f := by
  simp [windowAfter, List.foldl_append]

theorem windowAfter_pow : ∀ (fs : List Nat), ∃ k ≤ 5, windowAfter fs = 100 * 2 ^ k := by
  have main : ∀ (fs : List Nat) (w : Nat), (∃ k ≤ 5, w = 100 * 2 ^ k) →
      ∃ k ≤ 5, fs.foldl stepUpdate w = 100 * 2 ^ k := by
    intro fs
    induction fs with
    | nil => intro w h; exact h
    | cons f fs ih =>
      intro w h
      obtain ⟨k, hk, rfl⟩ := h
      rw [List.foldl_cons]
      apply ih
      unfold stepUpdate
      by_cases h1 : f = 0 ∧ 100 * 2 ^ k < 3200
      · rw [if_pos h1]
        refine ⟨k + 1, ?_, by ring⟩
        have : 2 ^ k < 32 := by
          by_contra hc
          have : (32 : Nat) ≤ 2 ^ k := by omega
          omega
        have : k < 5 := by
          by_contra hc
          have h5 : 5 ≤ k := by omega
          have : (2 : Nat) ^ 5 ≤ 2 ^ k := Nat.pow_le_pow_right (by omega) h5
          simp [Nat.pow_succ] at this
          omega
        omega
      · rw [if_neg h1]
        by_cases h2 : f > 0 ∧ 100 * 2 ^ k > 100
        · rw [if_pos h2]
          have hk1 : 1 ≤ k := by
            by_contra hc
            have : k = 0 := by omega
            subst this
            simp at h2
          refine ⟨k - 1, by omega, ?_⟩
          have : 2 ^ k = 2 * 2 ^ (k - 1) := by
            conv_lhs => rw [show k = (k - 1) + 1 by omega]
            rw [Nat.pow_succ]
            ring
          omega
        · rw [if_neg h2]
          exact ⟨k, hk, rfl⟩
  intro fs
  exact main fs 100 ⟨0, by omega, by norm_num⟩

theorem windowAfter_bounds (fs : List Nat) :
    100 ≤ windowAfter fs ∧ windowAfter fs ≤ 3200 := by
  obtain ⟨k, hk, hw⟩ := windowAfter_pow fs
  have h1 : (1 : Nat) ≤ 2 ^ k := Nat.one_le_two_pow
  have h2 : (2 : Nat) ^ k ≤ 2 ^ 5 := Nat.pow_le_pow_right (by omega) hk
  constructor <;> omega

theorem fetchLoop_never_done : ∀ (fuel : Nat) (q : Queue) (acc : List (Nat × Int)),
    q.closed = true → fetchLoop fuel q acc = none := by
  intro fuel
  induction fuel with
  | zero => intro q acc _; rfl
  | succ k ih =>
    intro q acc hc
    obtain ⟨items, closed⟩ := q
    cases items with
    | nil =>
      simp only [fetchLoop, recvQ] at *
      subst hc
      exact ih _ acc rfl
    | cons m rest =>
      simp only [fetchLoop, recvQ]
      exact ih _ _ hc

theorem fetchLoopSpec_done : ∀ (items : List (Nat × Int)) (fuel : Nat) (acc : List (Nat × Int)),
    items.length < fuel → fetchLoopSpec fuel ⟨items, true⟩ acc = some (acc ++ items) := by
  intro items
  induction items with
  | nil =>
    intro fuel acc h
    cases fuel with
    | zero => omega
    | succ k => simp [fetchLoopSpec, recvQ]
  | cons m rest ih =>
    intro fuel acc h
    cases fuel with
    | zero => simp at h
    | succ k =>
      have hstep : fetchLoopSpec (k + 1) ⟨m :: rest, true⟩ acc =
          fetchLoopSpec k ⟨rest, true⟩ (acc ++ [m]) := rfl
      rw [hstep, ih k (acc ++ [m]) (by simp at h; omega)]
      simp

/-! ## Tamper detection -/

theorem list_set_ne {l : List Nat} {i b : Nat} (hi : i < l.length) (hb : b ≠ l.getD i 0) :
    l.set i b ≠ l := by
  intro h
  apply hb
  have hlen : i < (l.set i b).length := by simpa using hi
  have hib : (l.set i b).getD i 0 = b := by
    rw [List.getD_eq_getElem _ _ hlen]
    exact List.getElem_set_self _
  rw [h] at hib
  exact hib.symm

theorem decode_hashed (features : Nat) (hf : features &&& FeatureHashed ≠ 0)
    (H body : List Nat) (hH : H.length = 20) :
    decode features (H ++ body) =
      match (if features &&& FeatureCompressed ≠ 0 then decompress body else some body) with
      | none => .error .gzipPanic
      | some d => if hash d ≠ H then .error .hashMismatch else .ok d := by
  unfold decode
  rw [if_neg (by rw [List.length_append, hH]; omega)]
  simp only [if_pos hf, List.take_left' hH, List.drop_left' hH]
  cases hdec : (if features &&& FeatureCompressed ≠ 0 then decompress body else some body) with
  | none => rfl
  | some d => simp [hf]

theorem tamper_detected (features : Nat) (data : List Nat) (i b : Nat)
    (hf : features &&& FeatureHashed ≠ 0)
    (hi : i < (encode features data).length)
    (hb : b ≠ (encode features data).getD i 0) :
    decode features ((encode features data).set i b) = .error .hashMismatch ∨
    decode features ((encode features data).set i b) = .error .gzipPanic := by
  have hE : encode features data = hash data ++
      (if features &&& FeatureCompressed ≠ 0 then compress data else data) := by
    simp [encode, if_pos hf]
  set C := if features &&& FeatureCompressed ≠ 0 then compress data else data with hC
  by_cases hi20 : i < 20
  · -- the flipped byte is inside the stored 20-byte hash prefix
    left
    have hiH : i < (hash data).length := by rw [hash_length]; omega
    rw [hE, List.set_append_left i b hiH]
    rw [decode_hashed features hf _ C (by rw [List.length_set, hash_length])]
    have hgetD : (encode features data).getD i 0 = (hash data).getD i 0 := by
      rw [hE]
      exact List.getD_append _ _ _ _ hiH
    have hne : hash data ≠ (hash data).set i b :=
      (list_set_ne hiH (by rw [← hgetD]; exact hb)).symm
    by_cases hcomp : features &&& FeatureCompressed ≠ 0
    · simp only [hC, if_pos hcomp, decompress_compress, if_pos hne]
    · simp only [hC, if_neg hcomp, if_pos hne]
  · -- the flipped byte is in the stored (possibly compressed) body
    have h20 : (hash data).length ≤ i := by rw [hash_length]; omega
    have hiC : i - 20 < C.length := by
      rw [hE, List.length_append, hash_length] at hi
      omega
    have hbC : b ≠ C.getD (i - 20) 0 := by
      have : (encode features data).getD i 0 = C.getD (i - (hash data).length) 0 := by
        rw [hE]
        exact List.getD_append_right _ _ _ _ h20
      rw [hash_length] at this
      rw [← this]
      exact hb
    rw [hE, List.set_append_right i b h20, hash_length]
    rw [decode_hashed features hf _ _ (hash_length data)]
    by_cases hcomp : features &&& FeatureCompressed ≠ 0
    · rw [if_pos hcomp]
      have hCc : C = 31 :: 139 :: data.length :: data := by
        rw [hC, if_pos hcomp]; rfl
      rw [hCc] at hiC hbC ⊢
      match hj : i - 20 with
      | 0 =>
        right
        rw [hj] at hbC
        simp only [List.getD_cons_zero] at hbC
        rw [List.set_cons_zero]
        simp only [decompress]
        rw [if_neg (fun h => hbC h.1)]
      | 1 =>
        right
        rw [hj] at hbC
        simp only [List.getD_cons_succ, List.getD_cons_zero] at hbC
        rw [List.set_cons_succ, List.set_cons_zero]
        simp only [decompress]
        rw [if_neg (fun h => hbC h.2.1)]
      | 2 =>
        right
        rw [hj] at hbC
        simp only [List.getD_cons_succ, List.getD_cons_zero] at hbC
        rw [List.set_cons_succ, List.set_cons_succ, List.set_cons_zero]
        simp only [decompress]
        rw [if_neg (fun h => hbC h.2.2.symm)]
      | (k + 3) =>
        left
        rw [hj] at hbC hiC
        simp only [List.getD_cons_succ] at hbC
        simp only [List.length_cons] at hiC
        rw [List.set_cons_succ, List.set_cons_succ, List.set_cons_succ]
        have hk : k < data.length := by omega
        have hd : decompress (31 :: 139 :: data.length :: data.set k b) =
            some (data.set k b) := by
          simp [decompress, List.length_set]
        rw [hd]
        have hne : data.set k b ≠ data := list_set_ne hk hbC
        have hfinal : hash (data.set k b) ≠ hash data := fun hh => hne (hash_injective hh)
        simp [hfinal]
    · rw [if_neg hcomp]
      have hCd : C = data := by rw [hC, if_neg hcomp]
      rw [hCd] at hiC hbC ⊢
      left
      have hne : data.set (i - 20) b ≠ data := list_set_ne hiC hbC
      have hfinal : hash (data.set (i - 20) b) ≠ hash data := fun hh => hne (hash_injective hh)
      simp [hfinal]

/-! ## Replay: labels lookup, index facts, truncated tails -/

theorem lookupAssoc_setAssoc (k k2 : Int) (v : List (List Nat))
    (m : List (Int × List (List Nat))) :
    lookupAssoc k (setAssoc k2 v m) = if k2 = k then some v else lookupAssoc k m := by
  induction m with
  | nil => simp [setAssoc, lookupAssoc]
  | cons e rest ih =>
    obtain ⟨k3, v3⟩ := e
    by_cases h : k3 = k2
    · subst h
      simp only [setAssoc, if_pos rfl, lookupAssoc]
      by_cases h2 : k3 = k <;> simp [lookupAssoc, h2]
    · simp only [setAssoc, if_neg h]
      by_cases h2 : k3 = k
      · have hk2 : ¬k2 = k := fun hh => h (by rw [h2, hh])
        simp [lookupAssoc, h2, hk2]
      · simp [lookupAssoc, h2, ih]

theorem lookupAssoc_entries_foldl (es : List (Int × List (List Nat)))
    (m : List (Int × List (List Nat))) (id : Int) :
    lookupAssoc id (es.foldl (fun m2 e => setAssoc e.1 e.2 m2) m) =
      es.foldl (fun acc e => if e.1 = id then some e.2 else acc) (lookupAssoc id m) := by
  induction es generalizing m with
  | nil => rfl
  | cons e es ih =>
    simp only [List.foldl_cons]
    rw [ih, lookupAssoc_setAssoc]

theorem lookupAssoc_replay (recs : List LogRec) (idx : Index) (id : Int) :
    lookupAssoc id ((recs.foldl applyRec idx).labels) =
      ((recs.map fun r =>
        match r with
        | .labels es => es
        | _ => []).flatten).foldl
        (fun acc e => if e.1 = id then some e.2 else acc) (lookupAssoc id idx.labels) := by
  induction recs generalizing idx with
  | nil => simp
  | cons r recs ih =>
    simp only [List.foldl_cons, List.map_cons, List.flatten_cons, List.foldl_append]
    rw [ih]
    cases r with
    | msg id2 d => rfl
    | labels es =>
      simp only [applyRec]
      rw [lookupAssoc_entries_foldl]
    | other t d => rfl

theorem specLastLabels_replay (recs : List LogRec) (id : Int) :
    lookupAssoc id ((recs.foldl applyRec ⟨[], []⟩).labels) = specLastLabels recs id := by
  rw [lookupAssoc_replay]
  rfl

theorem mem_haveInsert (id : Int) (l : List Int) : id ∈ haveInsert id l := by
  unfold haveInsert
  by_cases h : id ∈ l
  · rw [if_pos h]; exact h
  · rw [if_neg h]; simp

theorem mkFile_append (recs : List LogRec) (r : LogRec) :
    mkFile recs ++ recBytes r = mkFile (recs ++ [r]) := by
  simp [mkFile, logBytes, List.append_assoc]

theorem readHeader_any (t f L : Nat) (rest : List Nat)
    (ht : t < 65536) (hf : f < 65536) (hL : L < 4294967296) :
    readHeader (u16le t ++ u16le f ++ u32le L ++ rest) = .ok ((t, f, L), rest) := by
  simp only [u16le, u32le, List.cons_append, List.nil_append]
  unfold readHeader
  simp only [List.length_cons, dec16, dec32, List.getD_cons_zero, List.getD_cons_succ,
    List.drop_succ_cons, List.drop_zero]
  rw [if_neg (by omega), if_neg (by omega)]
  simp only [Except.ok.injEq, Prod.mk.injEq]
  exact ⟨⟨by omega, by omega, by omega⟩, trivial⟩

theorem nextRecord_tail_header (t f L : Nat)
    (ht : t < 65536) (hf : f < 65536) (hL : L < 4294967296) (hL0 : 0 < L) :
    nextRecord 0 (u16le t ++ u16le f ++ u32le L) = .error .eof := by
  unfold nextRecord
  rw [nextRecordF_succ]
  have hh := readHeader_any t f L [] ht hf hL
  rw [List.append_nil] at hh
  simp only [hh]
  rw [if_neg (by omega)]
  unfold readFull
  rw [if_pos ⟨by omega, rfl⟩]

theorem replayF_logBytes_tail : ∀ (recs : List LogRec) (idx : Index) (fuel : Nat)
    (T : List Nat), nextRecord 0 T = .error .eof →
    (logBytes recs ++ T).length < fuel → (∀ r ∈ recs, recWF r) →
    replayF fuel idx (logBytes recs ++ T) = .ok (recs.foldl applyRec idx) := by
  intro recs
  induction recs with
  | nil =>
    intro idx fuel T hT hfuel _
    cases fuel with
    | zero => simp at hfuel
    | succ k =>
      have : logBytes [] ++ T = T := by simp [logBytes]
      rw [this] at hfuel ⊢
      rw [replayF_succ, hT]
      rfl
  | cons r recs ih =>
    intro idx fuel T hT hfuel hwf
    have hl : logBytes (r :: recs) ++ T = recBytes r ++ (logBytes recs ++ T) := by
      simp [logBytes]
    rw [hl] at hfuel ⊢
    rw [replayF_step r (logBytes recs ++ T) idx fuel ((logBytes recs ++ T).length + 1)
      (hwf r (List.mem_cons_self _ _)) hfuel (Nat.lt_succ_self _)]
    exact ih (applyRec idx r) _ T hT (Nat.lt_succ_self _)
      fun r2 hr2 => hwf r2 (List.mem_cons_of_mem r hr2)

theorem dec32_fileHeaderBytes (x : List Nat) :
    dec32 (fileHeaderBytes ++ x) = fileMagic := by
  have : fileHeaderBytes ++ x =
      u32le fileMagic ++ (([1, 0] ++ u16le 0 ++ u32le 0 ++ u32le 0 ++ u64le 0 ++ u64le 0 ++
        u64le 0) ++ x) := by
    simp [fileHeaderBytes, List.append_assoc]
  rw [this, dec32_u32le]
  rfl

theorem openDB_logBytes_tail (recs : List LogRec) (T : List Nat)
    (hT : nextRecord 0 T = .error .eof) (hwf : ∀ r ∈ recs, recWF r) :
    openDB (mkFile recs ++ T) = .ok (recs.foldl applyRec ⟨[], []⟩) := by
  unfold openDB mkFile
  rw [List.append_assoc]
  have hlen : (fileHeaderBytes ++ (logBytes recs ++ T)).length =
      40 + (logBytes recs ++ T).length := by
    rw [List.length_append, fileHeaderBytes_length]
  rw [if_neg (by omega), if_neg (by omega)]
  rw [if_neg (by rw [dec32_fileHeaderBytes]; exact fun h => h rfl)]
  rw [List.drop_left' fileHeaderBytes_length]
  exact replayF_logBytes_tail recs _ _ T hT (by omega) hwf

/-! ## Claim theorems -/

/-- C1.  Round-trip of the record payload codec: for every payload `p` and
every combination of the Hashed and Compressed feature bits (any `features`
word — only those two bits are consulted), decoding the stored payload
produced by `writeRecord`'s encoding (hash of the uncompressed payload
prepended first, then compression applied) yields `p` exactly. -/
theorem codec_roundtrip (features : Nat) (p : List Nat) :
    decode features (encode features p) = .ok p :=
  decode_encode features p

/-- C2 (counterexample).  The claim says that once `WriteMessage` returns,
`HaveUID` of that id is true without reopening.  On the code it is false:
`WriteMessage` never touches `haveMsgID`, so writing message 7 into a
freshly opened empty archive leaves `HaveUID(7) = false`. -/
theorem writeMessage_not_indexed_cex :
    ((dbOf []).writeMessage 7 [65]).haveUID 7 = false ∧
      (dbOf []).haveUID 7 = false := ⟨rfl, rfl⟩

/-- C2 (amended).  `WriteMessage` appends the Message record under the lock
but does not update the in-memory index: `HaveUID` returns exactly what it
returned before the write, and the id becomes known only through a replay of
the appended file (reopening marks it). -/
theorem writeMessage_index_unchanged (recs : List LogRec) (id : Int) (data : List Nat)
    (hwf : ∀ r ∈ recs, recWF r) (hmsg : recWF (.msg id data)) :
    ((dbOf recs).writeMessage id data).haveUID id = (dbOf recs).haveUID id ∧
    ∃ idx, openDB (((dbOf recs).writeMessage id data).file) = .ok idx ∧
      id ∈ idx.haveMsgID := by
  refine ⟨rfl, (recs ++ [LogRec.msg id data]).foldl applyRec (⟨[], []⟩ : Index), ?_, ?_⟩
  · have hfile : ((dbOf recs).writeMessage id data).file = mkFile (recs ++ [.msg id data]) := by
      rw [show ((dbOf recs).writeMessage id data).file =
        mkFile recs ++ recBytes (.msg id data) from rfl]
      exact mkFile_append recs _
    rw [hfile]
    apply openDB_mkFile
    intro r hr
    rcases List.mem_append.mp hr with h | h
    · exact hwf r h
    · rw [List.mem_singleton.mp h]; exact hmsg
  · rw [List.foldl_append]
    exact mem_haveInsert id _

/-- C2 (witness). -/
theorem writeMessage_index_unchanged_witness :
    ((dbOf []).writeMessage 7 [65]).haveUID 7 = (dbOf []).haveUID 7 ∧
    ∃ idx, openDB (((dbOf []).writeMessage 7 [65]).file) = .ok idx ∧
      (7 : Int) ∈ idx.haveMsgID :=
  writeMessage_index_unchanged [] 7 [65] (by decide) (by decide)

/-- C3 (counterexample).  The claim says a second `WriteMessage` for a known
id is rejected or flagged with a `DuplicateMessageError`.  On the code there
is no duplicate check at all: with id 7 already known, a second write
returns normally and appends a second Message record for 7, and the export
then shows two units for id 7. -/
theorem duplicate_write_accepted_cex :
    (dbOf [.msg 7 [5]]).haveUID 7 = true ∧
    ((dbOf [.msg 7 [5]]).writeMessage 7 [9]).file = mkFile [.msg 7 [5], .msg 7 [9]] ∧
    msgUnits [.msg 7 [5], .msg 7 [9]] = [(7, [5]), (7, [9])] := ⟨rfl, rfl, rfl⟩

/-- C3 (amended).  `WriteMessage` performs no duplicate detection: even when
the index already knows the id, the call appends the new Message record
unconditionally (its only error source is the file system) and leaves the
index untouched; duplicate avoidance rests entirely on callers checking
`HaveUID` before fetching. -/
theorem writeMessage_no_duplicate_check (db : DB) (id : Int) (data : List Nat)
    (_h : db.haveUID id = true) :
    (db.writeMessage id data).file = db.file ++ recBytes (.msg id data) ∧
    (db.writeMessage id data).haveMsgID = db.haveMsgID := ⟨rfl, rfl⟩

/-- C3 (witness). -/
theorem writeMessage_no_duplicate_check_witness :
    ((dbOf [.msg 7 [5]]).writeMessage 7 [9]).file =
      (dbOf [.msg 7 [5]]).file ++ recBytes (.msg 7 [9]) ∧
    ((dbOf [.msg 7 [5]]).writeMessage 7 [9]).haveMsgID = (dbOf [.msg 7 [5]]).haveMsgID :=
  writeMessage_no_duplicate_check (dbOf [.msg 7 [5]]) 7 [9] (by decide)

/-- C4.  Tamper detection: flipping any byte of a Hashed record's stored
payload makes `decode` fail — either the recomputed hash of the decompressed
body differs from the stored 20-byte prefix (`panic("hash failure")`, the
code's integrity error) or the corrupted compressed stream already fails to
decompress; a mismatch is never silently accepted. -/
theorem hashed_tamper_rejected (features : Nat) (data : List Nat) (i b : Nat)
    (hf : features &&& FeatureHashed ≠ 0)
    (hi : i < (encode features data).length)
    (hb : b ≠ (encode features data).getD i 0) :
    decode features ((encode features data).set i b) = .error .hashMismatch ∨
    decode features ((encode features data).set i b) = .error .gzipPanic :=
  tamper_detected features data i b hf hi hb

/-- C4 (witness). -/
theorem hashed_tamper_rejected_witness :
    ((3 : Nat) &&& FeatureHashed ≠ 0) ∧ 0 < (encode 3 [5]).length ∧
    ((1 : Nat) ≠ (encode 3 [5]).getD 0 0) ∧
    (decode 3 ((encode 3 [5]).set 0 1) = .error .hashMismatch ∨
      decode 3 ((encode 3 [5]).set 0 1) = .error .gzipPanic) :=
  ⟨by decide, by decide, by decide,
    hashed_tamper_rejected 3 [5] 0 1 (by decide) (by decide) (by decide)⟩

/-- C5 (counterexample).  The claim says an archive whose final record
header declares a length exceeding the remaining bytes opens successfully
with the tail discarded.  On the code this fails whenever any payload byte
follows the header: here the tail header declares length 100 but one byte
remains, `fd.Read` silently returns the short zero-padded buffer, and the
gzip reader panics — `Open` does not succeed, although the same archive
without the partial tail opens fine. -/
theorem truncated_tail_cex :
    openDB ((mkFile [.msg 7 [5]] ++ (u16le 1 ++ u16le 3 ++ u32le 100)) ++ [31]) =
      .error .gzipPanic ∧
    openDB (mkFile [.msg 7 [5]]) = .ok ⟨[7], []⟩ := ⟨rfl, rfl⟩

/-- C5 (amended).  A truncated tail is tolerated only in the narrowest case:
when the crash left exactly a complete 8-byte record header (declared
length > 0) and none of its payload bytes.  Then the next read returns
`io.EOF`, `Open` treats it as the logical end of file, and the index equals
that of the archive without the tail.  With one or more partial payload
bytes present the decode path panics instead (see the counterexample), and
a partial header yields `io.ErrUnexpectedEOF`, failing `Open`. -/
theorem truncated_tail_header_only (recs : List LogRec) (t f L : Nat)
    (hwf : ∀ r ∈ recs, recWF r) (ht : t < 65536) (hf2 : f < 65536)
    (hL : L < 4294967296) (hL0 : 0 < L) :
    openDB (mkFile recs ++ (u16le t ++ u16le f ++ u32le L)) = openDB (mkFile recs) := by
  rw [openDB_logBytes_tail recs _ (nextRecord_tail_header t f L ht hf2 hL hL0) hwf,
    openDB_mkFile recs hwf]

/-- C5 (witness). -/
theorem truncated_tail_header_only_witness :
    openDB (mkFile [.msg 7 [5]] ++ (u16le 1 ++ u16le 3 ++ u32le 100)) =
      openDB (mkFile [.msg 7 [5]]) :=
  truncated_tail_header_only [.msg 7 [5]] 1 3 100 (by decide) (by decide) (by decide)
    (by decide) (by decide)

/-- C6.  Replay is last-writer-wins for labels: opening an archive holding
`recs` succeeds, and for every message id the rebuilt index's labels entry
equals `specLastLabels` — the spec's own rule that the chronologically last
Labels entry mentioning the id fully determines its label set. -/
theorem labels_last_writer_wins (recs : List LogRec) (id : Int)
    (hwf : ∀ r ∈ recs, recWF r) :
    ∃ idx, openDB (mkFile recs) = .ok idx ∧
      lookupAssoc id idx.labels = specLastLabels recs id :=
  ⟨_, openDB_mkFile recs hwf, specLastLabels_replay recs id⟩

/-- C6 (witness): the spec's own example, `L1 = {1:[a]}` then
`L2 = {1:[b,c]}` — replay yields labels b, c for id 1. -/
theorem labels_last_writer_wins_witness :
    (∃ idx, openDB (mkFile [.labels [(1, [[97]])], .labels [(1, [[98], [99]])]]) = .ok idx ∧
      lookupAssoc 1 idx.labels =
        specLastLabels [.labels [(1, [[97]])], .labels [(1, [[98], [99]])]] 1) ∧
    specLastLabels [.labels [(1, [[97]])], .labels [(1, [[98], [99]])]] 1 =
      some [[98], [99]] :=
  ⟨labels_last_writer_wins [.labels [(1, [[97]])], .labels [(1, [[98], [99]])]] 1
    (by decide), rfl⟩

/-- C7.  Adaptive scan window: after any sequence of rounds the window stays
within [100, 3200]; a round with zero new messages while below the ceiling
doubles it, and a round with at least one new message while above the floor
halves it. -/
theorem adaptive_window (fs : List Nat) :
    (100 ≤ windowAfter fs ∧ windowAfter fs ≤ 3200) ∧
    (∀ f, f = 0 → windowAfter fs < 3200 → windowAfter (fs ++ [f]) = 2 * windowAfter fs) ∧
    (∀ f, 0 < f → 100 < windowAfter fs → windowAfter (fs ++ [f]) = windowAfter fs / 2) := by
  refine ⟨windowAfter_bounds fs, ?_, ?_⟩
  · intro f hf hlt
    rw [windowAfter_append]
    unfold stepUpdate
    rw [if_pos ⟨hf, hlt⟩]
    ring
  · intro f hf hgt
    rw [windowAfter_append]
    unfold stepUpdate
    rw [if_neg (by omega), if_pos ⟨hf, hgt⟩]

/-- C7 (witness). -/
theorem adaptive_window_witness :
    (100 ≤ windowAfter [] ∧ windowAfter [] ≤ 3200) ∧
    windowAfter ([] ++ [0]) = 2 * windowAfter [] ∧
    windowAfter ([0] ++ [3]) = windowAfter [0] / 2 :=
  ⟨(adaptive_window []).1, (adaptive_window []).2.1 0 rfl (by decide),
    (adaptive_window [0]).2.2 3 (by decide) (by decide)⟩

/-- C8.  The worker loop of `fetchAndStore` never terminates once the queue
is closed: the `break` in its `select` exits only the `select`, so on a
closed (and eventually drained) queue the loop spins forever and `wg.Done()`
is unreachable (first conjunct: no fuel bound suffices to reach it, even
with items still queued).  The loop the spec describes — exit upon
observing the queue closed and drained — does terminate, having consumed
exactly the queued items (second conjunct). -/
theorem worker_loop_never_signals :
    (∀ (fuel : Nat) (q : Queue) (acc : List (Nat × Int)),
      q.closed = true → fetchLoop fuel q acc = none) ∧
    (∀ (items : List (Nat × Int)) (fuel : Nat) (acc : List (Nat × Int)),
      items.length < fuel → fetchLoopSpec fuel ⟨items, true⟩ acc = some (acc ++ items)) :=
  ⟨fetchLoop_never_done, fetchLoopSpec_done⟩

/-- C8 (witness). -/
theorem worker_loop_never_signals_witness :
    fetchLoop 1000 ⟨[(1, 5)], true⟩ [] = none ∧
    fetchLoopSpec 2 ⟨[(1, 5)], true⟩ [] = some [(1, 5)] :=
  ⟨worker_loop_never_signals.1 1000 ⟨[(1, 5)], true⟩ [] rfl, by
    have h := worker_loop_never_signals.2 [(1, 5)] 2 [] (by decide)
    simpa using h⟩

/-- C9 (counterexample).  The claim says ids mentioned in a Delete record
are tombstoned: not exported and not counted.  On the code Delete records
are ignored entirely: an archive holding message 1 and a Delete record
mentioning 1 still opens with 1 known, `Size` counts it, and the mbox
export still emits the unit for id 1. -/
theorem delete_ignored_cex :
    openDB (mkFile [.msg 1 [65], .other 3 [1]]) = .ok ⟨[1], []⟩ ∧
    mboxUnits (mkFile [.msg 1 [65], .other 3 [1]]) = .ok [(1, [65])] ∧
    (Index.haveMsgID ⟨[1], []⟩).length = 1 := ⟨rfl, rfl, rfl⟩

/-- C9 (amended).  The Delete record type is a reserved constant with no
semantics: the decoder has no case for type 3, so replay, index and export
are unaffected by inserting a Delete record anywhere in the log — the ids
it mentions stay known, counted and exported. -/
theorem delete_records_inert (pre post : List LogRec) (d : List Nat)
    (hwf : ∀ r ∈ pre ++ post, recWF r) (hd : d.length < 4294967296) :
    openDB (mkFile (pre ++ .other 3 d :: post)) = openDB (mkFile (pre ++ post)) ∧
    mboxUnits (mkFile (pre ++ .other 3 d :: post)) = mboxUnits (mkFile (pre ++ post)) := by
  have hwfd : recWF (.other 3 d) := ⟨by omega, by omega, by omega, hd⟩
  have hwf2 : ∀ r ∈ pre ++ .other 3 d :: post, recWF r := by
    intro r hr
    rcases List.mem_append.mp hr with h | h
    · exact hwf r (List.mem_append.mpr (Or.inl h))
    · rcases List.mem_cons.mp h with h | h
      · rw [h]; exact hwfd
      · exact hwf r (List.mem_append.mpr (Or.inr h))
  constructor
  · rw [openDB_mkFile _ hwf2, openDB_mkFile _ hwf]
    have : (pre ++ LogRec.other 3 d :: post).foldl applyRec ⟨[], []⟩ =
        (pre ++ post).foldl applyRec ⟨[], []⟩ := by
      rw [List.foldl_append, List.foldl_append, List.foldl_cons]
      rfl
    rw [this]
  · rw [mboxUnits_mkFile _ hwf2, mboxUnits_mkFile _ hwf]
    have : msgUnits (pre ++ LogRec.other 3 d :: post) = msgUnits (pre ++ post) := by
      simp [msgUnits, List.filterMap_append]
    rw [this]

/-- C9 (witness). -/
theorem delete_records_inert_witness :
    openDB (mkFile ([.msg 1 [65]] ++ .other 3 [1] :: [])) =
      openDB (mkFile ([.msg 1 [65]] ++ [])) ∧
    mboxUnits (mkFile ([.msg 1 [65]] ++ .other 3 [1] :: [])) =
      mboxUnits (mkFile ([.msg 1 [65]] ++ [])) :=
  delete_records_inert [.msg 1 [65]] [] [1] (by decide) (by decide)

/-- C10.  `WriteLabels` appends exactly one Labels record whose entries are
precisely the dirty ids, each paired with its current in-memory label list;
it clears the dirty set and leaves the labels map and the known-id map
untouched.  The appended bytes decode back as that single Labels record
(consuming them exactly), so this holds also when no id is dirty: the record
then has zero entries. -/
theorem writeLabels_flushes_dirty (db : DB)
    (hwf : recWF (.labels (db.labelsChanged.map fun id => (id, db.labelsOf id)))) :
    db.writeLabels.labels = db.labels ∧
    db.writeLabels.labelsChanged = [] ∧
    db.writeLabels.haveMsgID = db.haveMsgID ∧
    db.writeLabels.file = db.file ++
      recBytes (.labels (db.labelsChanged.map fun id => (id, db.labelsOf id))) ∧
    nextRecord 0 (recBytes (.labels (db.labelsChanged.map fun id => (id, db.labelsOf id)))) =
      .ok (.labels (db.labelsChanged.map fun id => (id, db.labelsOf id)), []) := by
  refine ⟨rfl, rfl, rfl, rfl, ?_⟩
  have h := nextRecord_labels 0 (db.labelsChanged.map fun id => (id, db.labelsOf id)) [] hwf
    (Or.inl rfl)
  rwa [List.append_nil] at h

/-- C10 (witness). -/
theorem writeLabels_flushes_dirty_witness :
    (DB.writeLabels ⟨[(1, [[97]])], [1], [], []⟩).labels = [(1, [[97]])] ∧
    (DB.writeLabels ⟨[(1, [[97]])], [1], [], []⟩).labelsChanged = [] ∧
    (DB.writeLabels ⟨[(1, [[97]])], [1], [], []⟩).haveMsgID = [] ∧
    (DB.writeLabels ⟨[(1, [[97]])], [1], [], []⟩).file = [] ++
      recBytes (.labels ([1].map fun id =>
        (id, DB.labelsOf ⟨[(1, [[97]])], [1], [], []⟩ id))) ∧
    nextRecord 0 (recBytes (.labels ([1].map fun id =>
        (id, DB.labelsOf ⟨[(1, [[97]])], [1], [], []⟩ id)))) =
      .ok (.labels ([1].map fun id =>
        (id, DB.labelsOf ⟨[(1, [[97]])], [1], [], []⟩ id)), []) :=
  writeLabels_flushes_dirty ⟨[(1, [[97]])], [1], [], []⟩ (by decide)

end GmailSync
